import Mathlib

/-!
Verification development for the Challenge & Progression Engine of the
textbook-tutor application (`challenges.py`).

The Python module is shallowly embedded below.  Strings are modelled as
`List Char` where character-level algorithms matter (regex-style word
splitting, replacement, case mapping) and as `String` elsewhere.  Python's
case mapping, `\w`, `\d` and whitespace classes are modelled at the ASCII
level, which is the fragment the application's data exercises.  Randomness
(`random.sample`, `random.shuffle`, `random.choice`, `random.randint`) is
modelled by explicit parameters; theorems that rely on the contracts of
those primitives take the contracts as hypotheses.
-/

/-! ### ASCII character model of the Python primitives -/

/-- ASCII model of Python `str.lower` on one character. -/
def pyLower (c : Char) : Char :=
  if 65 ≤ c.toNat ∧ c.toNat ≤ 90 then Char.ofNat (c.toNat + 32) else c

/-- ASCII model of Python `str.upper` on one character. -/
def pyToUpper (c : Char) : Char :=
  if 97 ≤ c.toNat ∧ c.toNat ≤ 122 then Char.ofNat (c.toNat - 32) else c

/-- ASCII model of the regex class `\w` (letters, digits, underscore). -/
def isWordChar (c : Char) : Bool :=
  decide ((48 ≤ c.toNat ∧ c.toNat ≤ 57) ∨ (65 ≤ c.toNat ∧ c.toNat ≤ 90) ∨
    (97 ≤ c.toNat ∧ c.toNat ≤ 122) ∨ c.toNat = 95)

/-- ASCII model of the regex class `\d`. -/
def isDigitChar (c : Char) : Bool := decide (48 ≤ c.toNat ∧ c.toNat ≤ 57)

/-- ASCII model of Python's whitespace class (used by `str.strip`). -/
def isSpaceChar (c : Char) : Bool :=
  decide (c.toNat = 32 ∨ (9 ≤ c.toNat ∧ c.toNat ≤ 13))

/-- Case-insensitive character comparison, as Python's case-insensitive
regex flag and `lower()`-based comparisons use it (ASCII model). -/
def ciEq (a b : Char) : Bool := pyLower a == pyLower b

/-! ### List-of-characters string operations -/

/-- Python `str.strip()` (both ends, whitespace). -/
def pyStrip (s : List Char) : List Char :=
  ((s.dropWhile isSpaceChar).reverse.dropWhile isSpaceChar).reverse

/-- Python `str.capitalize()`: first character uppercased, the remainder
lowercased. -/
def pyCapitalize : List Char → List Char
  | [] => []
  | c :: cs => pyToUpper c :: cs.map pyLower

/-- Case-sensitive "is a prefix" test (Python `str.startswith`, and the
matching step of `str.replace`). -/
def csPrefixB (p s : List Char) : Bool := p.isPrefixOf s

/-- Case-insensitive "is a prefix" test. -/
def ciPrefixB : List Char → List Char → Bool
  | [], _ => true
  | _ :: _, [] => false
  | p :: ps, c :: cs => ciEq p c && ciPrefixB ps cs

/-- Python `text.replace(pat, rep, 1)`: replace the first (case-sensitive)
occurrence of `pat`, leaving the text unchanged when there is none. -/
def replaceFirstCS (pat rep : List Char) : List Char → List Char
  | [] => []
  | c :: cs =>
    if csPrefixB pat (c :: cs) then rep ++ (c :: cs).drop pat.length
    else c :: replaceFirstCS pat rep cs

/-- Replacement of the first case-insensitive occurrence of `pat` (the
behaviour the specification ascribes to the blanked sentence). -/
def replaceFirstCI (pat rep : List Char) : List Char → List Char
  | [] => []
  | c :: cs =>
    if ciPrefixB pat (c :: cs) then rep ++ (c :: cs).drop pat.length
    else c :: replaceFirstCI pat rep cs

/-- Fuelled worker for `re.findall(r"\b\w+\b", s)`: the list of maximal
runs of word characters.  `fuel ≥ s.length` makes the result exact. -/
def wordsFuel : Nat → List Char → List (List Char)
  | 0, _ => []
  | _ + 1, [] => []
  | fuel + 1, c :: cs =>
    if isWordChar c then
      (c :: cs.takeWhile isWordChar) :: wordsFuel fuel (cs.dropWhile isWordChar)
    else
      wordsFuel fuel cs

/-- `re.findall(r"\b\w+\b", s)` from `fill_in_blank_ui`. -/
def pyWords (s : List Char) : List (List Char) := wordsFuel s.length s

/-- Python `re.split("[.]", a)`: split on periods (used for the scenario
success steps). -/
def splitOnDot (s : List Char) : List (List Char) :=
  s.foldr
    (fun c acc =>
      if c = '.' then [] :: acc
      else
        match acc with
        | h :: t => (c :: h) :: t
        | [] => [[c]])
    [[]]

/-- Python `entry.startswith(label)` on whole strings. -/
def pyStartsWith (s pat : String) : Bool := pat.data.isPrefixOf s.data

/-! ### XP configuration and the Progress Ledger (`award_xp`) -/

/-- `XP_PER_CHALLENGE` from `challenges.py` (insertion-ordered dict). -/
def XP_PER_CHALLENGE : List (String × Nat) :=
  [("Flashcards", 5), ("MCQ Quiz", 10), ("Fill in the Blank", 10),
   ("Match the Answers", 12), ("Timed Question", 15),
   ("Scenario-Based (with Hint)", 15)]

/-- `XP_PER_CHALLENGE.get(label, 5)`. -/
def xpGain (label : String) : Nat := (XP_PER_CHALLENGE.lookup label).getD 5

/-- The ledger slice of `st.session_state.tutor`: XP total, level and the
activity log. -/
structure Ledger where
  xp : Nat
  level : Nat
  history : List String
deriving DecidableEq, Repr

/-- The activity-log entry `f"{label} +{gain} XP"`. -/
def xpEntry (label : String) (gain : Nat) : String :=
  label ++ " +" ++ toString gain ++ " XP"

/-- `award_xp` from `challenges.py`: add the configured XP, append the log
entry, then a single `if xp >= level * 50` check raising the level by one. -/
def award_xp (label : String) (s : Ledger) : Ledger :=
  if s.level * 50 ≤ s.xp + xpGain label then
    { xp := s.xp + xpGain label, level := s.level + 1,
      history := s.history ++ [xpEntry label (xpGain label)] }
  else
    { xp := s.xp + xpGain label, level := s.level,
      history := s.history ++ [xpEntry label (xpGain label)] }

/-- The fresh ledger created by `init_tutor_state` (`xp=0, level=1`, empty
log). -/
def initLedger : Ledger := { xp := 0, level := 1, history := [] }

/-- Modelled from the spec's words (§4.1): "after adding XP, while
`xp >= level * 50`, increment `level` by 1" — the loop rule, written for
comparison with the implemented single check.  `fuel ≥ xp + 1` is always
enough. -/
def levelLoopFuel : Nat → Nat → Nat → Nat
  | 0, _, level => level
  | fuel + 1, xp, level =>
    if level * 50 ≤ xp then levelLoopFuel fuel xp (level + 1) else level

/-- The level the spec's while-loop rule assigns after the total reaches
`xp`, starting from `level`. -/
def specLevelAfter (xp level : Nat) : Nat := levelLoopFuel (xp + 1) xp level

/-! ### Dashboard aggregation (`compute_xp_breakdown`) -/

/-- One row of the inner loop of `compute_xp_breakdown`: if the entry
starts with this row's label, add the row's configured XP to that label's
bucket. -/
def breakdownRow (entry : String) (d : String → Nat) (p : String × Nat) :
    String → Nat :=
  if pyStartsWith entry p.1 then Function.update d p.1 (d p.1 + p.2) else d

/-- Process one history entry against every row of `XP_PER_CHALLENGE`. -/
def breakdownEntry (d : String → Nat) (entry : String) : String → Nat :=
  XP_PER_CHALLENGE.foldl (breakdownRow entry) d

/-- `compute_xp_breakdown` from `challenges.py`, with the defaultdict
modelled as a total function that is `0` outside the touched labels. -/
def compute_xp_breakdown (history : List String) : String → Nat :=
  history.foldl breakdownEntry (fun _ => 0)

/-- The sum of the breakdown over all challenge kinds. -/
def kindSum (d : String → Nat) : Nat :=
  (XP_PER_CHALLENGE.map (fun p => d p.1)).sum

/-- The sum of a bucket function over the keys of a row list (generalises
`kindSum` for the aggregation proofs). -/
def rowSum (rows : List (String × Nat)) (d : String → Nat) : Nat :=
  (rows.map (fun p => d p.1)).sum

/-- The total XP one log entry contributes across the rows of the table
(it is attributed to every row whose label is a prefix of the entry). -/
def entryContribution (rows : List (String × Nat)) (entry : String) : Nat :=
  (rows.map (fun p => if pyStartsWith entry p.1 then p.2 else 0)).sum

/-- A sequence of `award_xp` calls applied in order. -/
def applyAwards (labels : List String) (s : Ledger) : Ledger :=
  labels.foldl (fun st l => award_xp l st) s

/-! ### Flashcards (`flashcards_ui`) -/

/-- The flashcard slice of the session state. -/
structure FlashState where
  index : Nat
  flipped : Bool
deriving DecidableEq, Repr

/-- The discrete user events `flashcards_ui` reacts to. -/
inductive FlashEvent where
  | flip
  | gotIt
  | next
  | restart
deriving DecidableEq

/-- The informational message shown when a chapter has no Q/A pairs. -/
def flashNoDataMsg : String := "No flashcards available for this chapter yet."

/-- `flashcards_ui` as an event-step function: with no pairs it reports the
informational message and touches nothing; otherwise it applies the
flip / got-it / next / restart transitions of the source. -/
def flashcards_ui (qList aList : List String) (ev : FlashEvent)
    (led : Ledger) (st : FlashState) : Ledger × FlashState × Option String :=
  let pairs := qList.zip aList
  if pairs.isEmpty then (led, st, some flashNoDataMsg)
  else if pairs.length ≤ st.index then
    match ev with
    | FlashEvent.restart => (led, { index := 0, flipped := false }, Option.none)
    | _ => (led, st, Option.none)
  else
    match ev with
    | FlashEvent.flip => (led, { st with flipped := true }, Option.none)
    | FlashEvent.gotIt =>
      if st.flipped then
        (award_xp "Flashcards" led, { index := st.index + 1, flipped := false },
          Option.none)
      else (led, st, Option.none)
    | FlashEvent.next =>
      if st.flipped then
        (led, { index := st.index + 1, flipped := false }, Option.none)
      else (led, st, Option.none)
    | FlashEvent.restart => (led, st, Option.none)

/-! ### MCQ quiz (`mcq_ui`) -/

/-- The MCQ slice of the session state (`mcq_index`, `mcq_score`,
`mcq_options`, `mcq_feedback`).  The option cache is an insertion-ordered
association list, as a Python dict is. -/
structure McqState where
  index : Nat
  score : Nat
  options : List (String × List String)
  feedback : Option (Bool × String)
deriving DecidableEq, Repr

/-- `q_key = f"{chapter}_{idx}"`. -/
def qKey (chapter : String) (idx : Nat) : String :=
  chapter ++ "_" ++ toString idx

/-- The option-construction of `mcq_ui`: the correct answer plus up to 3
distractors sampled from the other answers, shuffled.  `sample` and `shuf`
stand for `random.sample` and `random.shuffle`. -/
def mcqBuildOptions (aList : List String) (correct : String)
    (sample : List String → Nat → List String)
    (shuf : List String → List String) : List String :=
  let others := aList.filter (fun a => a ≠ correct)
  let distractors :=
    if others.isEmpty then [] else sample others (min 3 others.length)
  shuf (correct :: distractors)

/-- The per-render option lookup of `mcq_ui`: build the option set only
when the `(chapter, question)` key is absent, otherwise reuse the frozen
cached list. -/
def mcqEnsureOptions (chapter : String) (aList : List String)
    (correct : String) (sample : List String → Nat → List String)
    (shuf : List String → List String) (st : McqState) :
    McqState × List String :=
  match st.options.lookup (qKey chapter st.index) with
  | some opts => (st, opts)
  | Option.none =>
    let opts := mcqBuildOptions aList correct sample shuf
    ({ st with options := st.options ++ [(qKey chapter st.index, opts)] }, opts)

/-- The Submit branch of `mcq_ui`. -/
def mcqSubmit (choice correct : String) (led : Ledger) (st : McqState) :
    Ledger × McqState :=
  if choice = correct then
    (award_xp "MCQ Quiz" led,
      { st with feedback := some (true, correct), score := st.score + 10 })
  else (led, { st with feedback := some (false, correct) })

/-- The Next-Question branch of `mcq_ui`. -/
def mcqAdvance (st : McqState) : McqState :=
  { st with index := st.index + 1, feedback := Option.none }

/-- The Restart branch of `mcq_ui`: index, score, the whole option cache
and the pending feedback are reset. -/
def mcqRestart (_st : McqState) : McqState :=
  { index := 0, score := 0, options := [], feedback := Option.none }

/-- The informational message of `mcq_ui` for a chapter with no pairs. -/
def mcqNoDataMsg : String := "No quiz questions available for this chapter yet."

/-- The data guard at the top of `mcq_ui`: with no Q/A pairs it reports the
informational message and leaves ledger and session untouched. -/
def mcq_entry (qList aList : List String) (led : Ledger) (st : McqState) :
    Ledger × McqState × Option String :=
  if (qList.zip aList).isEmpty then (led, st, some mcqNoDataMsg)
  else (led, st, Option.none)

/-! ### Fill in the blank (`fill_in_blank_ui`) -/

/-- The fill-in-the-blank slice of the session state (`fib_order`,
`fib_index`, `fib_lives`, `fib_attempts`). -/
structure FibState where
  order : List Nat
  index : Nat
  lives : Int
  attempts : Nat
deriving DecidableEq, Repr

/-- The keyword choice of `fill_in_blank_ui`:
`next((w for w in words if len(w) > 4), words[0] if words else None)`. -/
def fibKeyword (full : List Char) : Option (List Char) :=
  match (pyWords full).find? (fun w => 4 < w.length) with
  | some w => some w
  | Option.none => (pyWords full).head?

/-- The blank marker `"____"`. -/
def blankMarker : List Char := "____".data

/-- The per-item rendering step of `fill_in_blank_ui`: with no keyword the
item is skipped (`fib_index += 1`, nothing else changes); otherwise the
keyword and the blanked sentence `full.replace(keyword, "____", 1)` are
produced with the state untouched. -/
def fibRenderItem (full : List Char) (st : FibState) :
    FibState × Option (List Char × List Char) :=
  match fibKeyword full with
  | Option.none => ({ st with index := st.index + 1 }, Option.none)
  | some kw => (st, some (kw, replaceFirstCS kw blankMarker full))

/-- The feedback `fill_in_blank_ui` displays after a Check click. -/
inductive FibFeedback where
  | correct
  | hint (firstLetter : Char) (letterCount : Nat)
  | reveal (keyword : List Char)
  | stillLives (livesLeft : Int)
deriving DecidableEq, Repr

/-- The Check branch of `fill_in_blank_ui`:
`guess.strip().lower() == keyword.lower()` awards XP and resets the
wrong-attempt counter; otherwise attempts and lives move and the
first / second wrong attempt produce the hint / the reveal-and-advance. -/
def fibCheck (guess kw : List Char) (led : Ledger) (st : FibState) :
    Ledger × FibState × FibFeedback :=
  if (pyStrip guess).map pyLower = kw.map pyLower then
    (award_xp "Fill in the Blank" led, { st with attempts := 0 },
      FibFeedback.correct)
  else
    let attempts := st.attempts + 1
    let lives := st.lives - 1
    if attempts = 1 then
      (led, { st with attempts := attempts, lives := lives },
        FibFeedback.hint (pyToUpper (kw.headD ' ')) kw.length)
    else if 2 ≤ attempts ∨ lives ≤ 0 then
      (led, { st with attempts := 0, lives := lives, index := st.index + 1 },
        FibFeedback.reveal kw)
    else
      (led, { st with attempts := attempts, lives := lives },
        FibFeedback.stillLives lives)

/-! ### Match the answers (`match_answers_ui`) -/

/-- The placeholder `match_answers_ui` substitutes for an empty selection:
`user_ans = ms["selections"][i] or "No answer selected"`. -/
def placeholderAns : String := "No answer selected"

/-- Whether one slot counts as matched in the Check loop. -/
def matchSlotOk (sel correct : String) : Bool :=
  (if sel = "" then placeholderAns else sel) = correct

/-- The score the Check loop computes over the slots. -/
def matchScore (correctAnswers selections : List String) : Nat :=
  (correctAnswers.zip selections).countP (fun p => matchSlotOk p.2 p.1)

/-- The Check-Matches branch of `match_answers_ui`: XP only on a perfect
score. -/
def matchCheck (correctAnswers selections : List String) (led : Ledger) :
    Ledger × Nat :=
  let score := matchScore correctAnswers selections
  if score = correctAnswers.length then
    (award_xp "Match the Answers" led, score)
  else (led, score)

/-! ### Timed question (`timed_question_ui`) -/

/-- The feedback strings of the timed challenge, modelled structurally
(each constructor carries exactly the data the f-string interpolates). -/
inductive TimedFeedback where
  | noFeedback
  | correctFast (elapsed : ℚ)
  | correctSlow (elapsed : ℚ)
  | incorrect (correctAnswer : String) (elapsed : ℚ)
deriving DecidableEq, Repr

/-- The timed-question slice of the session state. -/
structure TimedState where
  current_q : Nat
  score : Nat
  start_time : Option ℚ
  options : List (String × List String)
  answered : Bool
  feedback : TimedFeedback
deriving DecidableEq, Repr

/-- The Submit branch of `timed_question_ui`: elapsed wall-clock time `now`
minus the recorded start instant decides `fast_enough = elapsed <= 15`;
XP and score only for a fast correct choice; feedback records the
late-correct and incorrect cases.  A click while already answered, or with
no timer running, changes nothing (the widget is not rendered then). -/
def timedSubmit (choice correct : String) (now : ℚ) (led : Ledger)
    (ts : TimedState) : Ledger × TimedState :=
  if ts.answered then (led, ts)
  else
    match ts.start_time with
    | Option.none => (led, ts)
    | some t0 =>
      let elapsed := now - t0
      if choice = correct then
        if elapsed ≤ 15 then
          (award_xp "Timed Question" led,
            { ts with feedback := TimedFeedback.correctFast elapsed,
                      score := ts.score + 15, answered := true,
                      start_time := Option.none })
        else
          (led, { ts with feedback := TimedFeedback.correctSlow elapsed,
                          answered := true, start_time := Option.none })
      else
        (led, { ts with feedback := TimedFeedback.incorrect correct elapsed,
                        answered := true, start_time := Option.none })

/-! ### Scenario generation (`generate_scenario`) -/

/-- The fixed distractor pool of `generate_scenario`. -/
def scenarioDistractors : List String :=
  ["Skipped validation and sent the report immediately.",
   "Ignored the data and made a decision based only on intuition.",
   "Shared an outdated file without checking its accuracy.",
   "Used a completely unrelated tool instead of the one covered in this chapter."]

/-- The fixed role pool. -/
def scenarioRoles : List String :=
  ["data analyst", "IT coordinator", "junior accountant", "BI consultant"]

/-- The fixed name pool. -/
def scenarioNames : List String :=
  ["Jordan", "Alex", "Taylor", "Sam", "Jamie", "Morgan"]

/-- The generic padding steps for short answers. -/
def genericSteps : List String :=
  ["Reviewed the documentation", "Consulted with a senior colleague",
   "Tested the idea on a sample dataset"]

/-- `correct_option = f"Applied the concepts correctly: {a}"`. -/
def correctOption (a : String) : String :=
  "Applied the concepts correctly: " ++ a

/-- The four interrogative phrases of the `re.sub` pattern, in alternation
order. -/
def phraseList : List (List Char) :=
  ["what is".data, "how can".data, "describe".data, "explain".data]

/-- Whether phrase `p` matches at the current position: case-insensitive
prefix, with `\b` before (previous original character, if any, not a word
character) and `\b` after (next character, if any, not a word character).
All four phrases start and end with word characters, so this is exactly
the boundary condition of the pattern. -/
def phraseAt (prev : Option Char) (p text : List Char) : Bool :=
  ciPrefixB p text &&
    (match prev with
     | Option.none => true
     | some c => !isWordChar c) &&
    (match text.drop p.length with
     | [] => true
     | c :: _ => !isWordChar c)

/-- Fuelled worker for the `re.sub` call of `generate_scenario`: scan left
to right, at each position try the alternatives in order, delete a match
and continue after it.  `fuel ≥ text.length` makes the result exact. -/
def subAllFuel : Nat → Option Char → List Char → List Char
  | 0, _, t => t
  | _ + 1, _, [] => []
  | fuel + 1, prev, c :: cs =>
    match phraseList.find? (fun p => phraseAt prev p (c :: cs)) with
    | some p =>
      subAllFuel fuel ((c :: cs).take p.length).getLast? ((c :: cs).drop p.length)
    | Option.none => c :: subAllFuel fuel (some c) cs

/-- `re.sub(r"(?i)\bwhat is\b|\bhow can\b|\bdescribe\b|\bexplain\b", "", q)`:
every boundary-delimited, case-insensitive occurrence anywhere in the text
is removed. -/
def subAll (s : List Char) : List Char := subAllFuel s.length Option.none s

/-- `_clean_chapter_name`: `re.sub(r"^\d+(\.\d+)?\s*", "", name).strip()`. -/
def cleanChapterName (s : List Char) : List Char :=
  match s with
  | [] => []
  | c :: _ =>
    if isDigitChar c then
      let s1 := s.dropWhile isDigitChar
      let s2 :=
        match s1 with
        | '.' :: r :: rest =>
          if isDigitChar r then (r :: rest).dropWhile isDigitChar else s1
        | _ => s1
      pyStrip (s2.dropWhile isSpaceChar)
    else pyStrip s

/-- The fallback goal `f"Apply {_clean_chapter_name(chapter)} in a real task"`. -/
def fallbackGoal (chapter : List Char) : List Char :=
  "Apply ".data ++ cleanChapterName chapter ++ " in a real task".data

/-- The goal computation of `generate_scenario` applied to one question. -/
def scenarioGoal (chapter q : List Char) : List Char :=
  let goalText := pyStrip (subAll q)
  let g := pyCapitalize goalText
  if g.isEmpty then fallbackGoal chapter else g

/-- A generated scenario record. -/
structure Scenario where
  title : String
  actor : String
  goal : String
  summary : String
  success_path : List String
  failure_paths : List String
  question : String
  options : List String
  correct : String
  hint : String
deriving DecidableEq, Repr

/-- `generate_scenario` from `challenges.py`.  `ridx`, `nameIdx`, `roleIdx`
stand for the random pair / name / role choices, `sampled` for
`random.sample(distractors, k=3)` and `shuf` for `random.shuffle`. -/
def generate_scenario (chapter summary : String)
    (questions answers : List String) (ridx nameIdx roleIdx : Nat)
    (sampled : List String) (shuf : List String → List String) :
    Option Scenario :=
  if questions.isEmpty ∨ answers.isEmpty then Option.none
  else
    let q := questions.getD ridx ""
    let a := answers.getD ridx ""
    let name := scenarioNames.getD nameIdx ""
    let actor := name ++ ", a " ++ scenarioRoles.getD roleIdx ""
    let goal := scenarioGoal chapter.data q.data
    let steps0 := ((splitOnDot a.data).map pyStrip).filter (fun s => ¬s.isEmpty)
    let steps :=
      if steps0.length < 3 then steps0 ++ genericSteps.map String.data
      else steps0
    let options := shuf (sampled ++ [correctOption a])
    some
      { title := "Use Case: Applying " ++ String.mk (cleanChapterName chapter.data),
        actor := actor,
        goal := String.mk goal,
        summary := summary,
        success_path := (steps.take 4).map String.mk,
        failure_paths := scenarioDistractors,
        question := "What should " ++ name ++ " do next to achieve their goal?",
        options := options,
        correct := correctOption a,
        hint := "Think about the main purpose of " ++
          String.mk (cleanChapterName chapter.data) ++
          ": what is it supposed to help with?" }

/-! ### The specification's reading of the goal rule (for comparison) -/

/-- The goal rule as the specification words it: only the *leading*
interrogative phrases are stripped (repeatedly, with trimming), written
for comparison with the implemented rule. -/
def stripLeadingFuel : Nat → List Char → List Char
  | 0, s => s
  | fuel + 1, s =>
    match phraseList.find? (fun p => ciPrefixB p s) with
    | some p => stripLeadingFuel fuel (pyStrip (s.drop p.length))
    | Option.none => s

/-- Capitalisation as the specification words it: only the first letter is
capitalised, the rest of the text unchanged. -/
def capFirstOnly : List Char → List Char
  | [] => []
  | c :: cs => pyToUpper c :: cs

/-- The goal the specification describes: the question with its leading
interrogative phrases stripped, trimmed, first letter capitalised and the
rest unchanged; fallback when empty.  Written from the spec's words for
comparison with `scenarioGoal`. -/
def specGoalClaim (chapter q : List Char) : List Char :=
  let t := pyStrip (stripLeadingFuel q.length q)
  if t.isEmpty then fallbackGoal chapter else capFirstOnly t

/-! ## Theorems -/

/-! ### Basic ledger facts -/

/-- Every configured (or defaulted) gain is at most 15 XP. -/
theorem xpGain_le_fifteen (label : String) : xpGain label ≤ 15 := by
  simp only [xpGain, XP_PER_CHALLENGE, List.lookup]
  repeat' split
  all_goals simp_all

/-- The XP total after an award, independent of the level branch. -/
theorem award_xp_xp (label : String) (s : Ledger) :
    (award_xp label s).xp = s.xp + xpGain label := by
  unfold award_xp
  split <;> rfl

/-- The history after an award, independent of the level branch. -/
theorem award_xp_history (label : String) (s : Ledger) :
    (award_xp label s).history = s.history ++ [xpEntry label (xpGain label)] := by
  unfold award_xp
  split <;> rfl

/-- The spec's loop rule returns `level` unchanged below the threshold. -/
theorem levelLoopFuel_stop (fuel xp level : Nat) (h : ¬ level * 50 ≤ xp) :
    levelLoopFuel fuel xp level = level := by
  cases fuel <;> simp [levelLoopFuel, h]

/-- The spec's loop rule iterates once at or above the threshold. -/
theorem levelLoopFuel_step (fuel xp level : Nat) (h : level * 50 ≤ xp) :
    levelLoopFuel (fuel + 1) xp level = levelLoopFuel fuel xp (level + 1) := by
  simp [levelLoopFuel, h]

/-- Claim C1 counterexample: `award_xp` raises the level by at most one per
call (a single `if`), while the claim's while-loop rule would cross several
thresholds at once.  At the state `xp=140, level=1`, awarding the
15-XP Timed Question brings the total to 155: the code answers level 2,
the claim's loop rule answers level 4. -/
theorem C1_counterexample :
    (award_xp "Timed Question" { xp := 140, level := 1, history := [] }).level = 2
  ∧ specLevelAfter
      (award_xp "Timed Question" { xp := 140, level := 1, history := [] }).xp 1 = 4
  ∧ (2 : Nat) ≠ 4 := by
  refine ⟨by decide, by decide, by decide⟩

/-- Claim C1 (amended): every award adds the configured XP, appends the
`"{kind} +{xp} XP"` entry, and raises the level at most once via the single
`if xp >= level * 50` check; since every gain is at most 15 XP and the
thresholds are 50 apart, on any state satisfying the reachable-state
invariant `xp < level * 50` the single check coincides with the spec's
while-loop rule. -/
theorem C1_award_xp_single_check (label : String) (s : Ledger)
    (hinv : s.xp < s.level * 50) :
    (award_xp label s).xp = s.xp + xpGain label
  ∧ (award_xp label s).history = s.history ++ [xpEntry label (xpGain label)]
  ∧ xpGain label ≤ 15
  ∧ (award_xp label s).level ≤ s.level + 1
  ∧ (award_xp label s).level = specLevelAfter (s.xp + xpGain label) s.level := by
  have hg := xpGain_le_fifteen label
  refine ⟨award_xp_xp label s, award_xp_history label s, hg, ?_, ?_⟩
  · unfold award_xp
    split <;> simp
  · unfold award_xp specLevelAfter
    by_cases h : s.level * 50 ≤ s.xp + xpGain label
    · rw [if_pos h, levelLoopFuel_step _ _ _ h,
        levelLoopFuel_stop _ _ _ (by omega)]
    · rw [if_neg h, levelLoopFuel_stop _ _ _ h]

/-- Witness for the amended C1 theorem at `label = "MCQ Quiz"` on the fresh
ledger. -/
theorem C1_witness :
    initLedger.xp < initLedger.level * 50
  ∧ ((award_xp "MCQ Quiz" initLedger).xp = initLedger.xp + xpGain "MCQ Quiz"
     ∧ (award_xp "MCQ Quiz" initLedger).history =
         initLedger.history ++ [xpEntry "MCQ Quiz" (xpGain "MCQ Quiz")]
     ∧ xpGain "MCQ Quiz" ≤ 15
     ∧ (award_xp "MCQ Quiz" initLedger).level ≤ initLedger.level + 1
     ∧ (award_xp "MCQ Quiz" initLedger).level =
         specLevelAfter (initLedger.xp + xpGain "MCQ Quiz") initLedger.level) :=
  ⟨by decide, C1_award_xp_single_check "MCQ Quiz" initLedger (by decide)⟩

/-! ### C3: fill-in-the-blank check transitions -/

/-- Claim C3: a case-insensitive match (of the stripped, lowered guess
against the lowered keyword) never decreases lives; the first wrong
attempt on an item costs one life and produces the hint made of the
keyword's uppercased first letter and its letter count; the second wrong
attempt reveals the keyword, resets the wrong-attempt counter and
auto-advances the cursor, with no XP in either wrong case. -/
theorem C3_fib_check_transitions (guess kw : List Char) (led : Ledger)
    (st : FibState) :
    ((pyStrip guess).map pyLower = kw.map pyLower →
      (fibCheck guess kw led st).2.1.lives = st.lives)
  ∧ ((pyStrip guess).map pyLower ≠ kw.map pyLower → st.attempts = 0 →
      fibCheck guess kw led st =
        (led, { st with attempts := 1, lives := st.lives - 1 },
          FibFeedback.hint (pyToUpper (kw.headD ' ')) kw.length))
  ∧ ((pyStrip guess).map pyLower ≠ kw.map pyLower → st.attempts = 1 →
      fibCheck guess kw led st =
        (led, { st with attempts := 0, lives := st.lives - 1,
                        index := st.index + 1 },
          FibFeedback.reveal kw)) := by
  refine ⟨fun hm => ?_, fun hm h0 => ?_, fun hm h1 => ?_⟩
  · unfold fibCheck
    rw [if_pos hm]
  · unfold fibCheck
    rw [if_neg hm, h0]
    norm_num
  · unfold fibCheck
    rw [if_neg hm, h1]
    norm_num

/-- Witness for C3: the three transitions at concrete inputs. -/
theorem C3_witness :
    (fibCheck "  Program ".data "program".data initLedger
        { order := [0], index := 0, lives := 3, attempts := 0 }).2.1.lives = 3
  ∧ fibCheck "wrong".data "program".data initLedger
        { order := [0], index := 0, lives := 3, attempts := 0 } =
      (initLedger, { order := [0], index := 0, lives := 2, attempts := 1 },
        FibFeedback.hint 'P' 7)
  ∧ fibCheck "wrong".data "program".data initLedger
        { order := [0], index := 0, lives := 2, attempts := 1 } =
      (initLedger, { order := [0], index := 1, lives := 1, attempts := 0 },
        FibFeedback.reveal "program".data) := by
  refine ⟨(C3_fib_check_transitions _ _ _ _).1 (by decide), ?_, ?_⟩
  · exact (C3_fib_check_transitions "wrong".data "program".data initLedger
      { order := [0], index := 0, lives := 3, attempts := 0 }).2.1
      (by decide) rfl
  · exact (C3_fib_check_transitions "wrong".data "program".data initLedger
      { order := [0], index := 0, lives := 2, attempts := 1 }).2.2
      (by decide) rfl

/-! ### C5: timed submit -/

/-- Claim C5: on a timed submit, XP is awarded exactly when the choice is
correct and the elapsed wall-clock time is at most 15 seconds (the
boundary `elapsed = 15` inclusive); a late correct choice earns nothing
but records correct-but-late feedback; a wrong choice earns nothing and
records the correct answer together with the elapsed time. -/
theorem C5_timed_submit_boundary (choice correct : String) (now t0 : ℚ)
    (led : Ledger) (ts : TimedState) (hans : ts.answered = false)
    (hst : ts.start_time = some t0) :
    (timedSubmit choice correct now led ts).1 =
      (if choice = correct ∧ now - t0 ≤ 15 then award_xp "Timed Question" led
       else led)
  ∧ ((timedSubmit choice correct now led ts).1.xp = led.xp + 15 ↔
      (choice = correct ∧ now - t0 ≤ 15))
  ∧ (choice = correct → now - t0 ≤ 15 →
      (timedSubmit choice correct now led ts).2.score = ts.score + 15 ∧
      (timedSubmit choice correct now led ts).2.feedback =
        TimedFeedback.correctFast (now - t0))
  ∧ (choice = correct → ¬ now - t0 ≤ 15 →
      (timedSubmit choice correct now led ts).1 = led ∧
      (timedSubmit choice correct now led ts).2.feedback =
        TimedFeedback.correctSlow (now - t0) ∧
      (timedSubmit choice correct now led ts).2.score = ts.score)
  ∧ (choice ≠ correct →
      (timedSubmit choice correct now led ts).1 = led ∧
      (timedSubmit choice correct now led ts).2.feedback =
        TimedFeedback.incorrect correct (now - t0) ∧
      (timedSubmit choice correct now led ts).2.score = ts.score) := by
  have haward : (award_xp "Timed Question" led).xp = led.xp + 15 := by
    rw [award_xp_xp]
    rfl
  have h1 : (timedSubmit choice correct now led ts).1 =
      (if choice = correct ∧ now - t0 ≤ 15 then award_xp "Timed Question" led
       else led) := by
    unfold timedSubmit
    rw [hans, hst]
    by_cases hc : choice = correct <;> by_cases ht : now - t0 ≤ 15 <;>
      simp [hc, ht]
  have h2 : (timedSubmit choice correct now led ts).1.xp = led.xp + 15 ↔
      (choice = correct ∧ now - t0 ≤ 15) := by
    rw [h1]
    by_cases hc : choice = correct <;> by_cases ht : now - t0 ≤ 15 <;>
      simp [hc, ht, haward]
  refine ⟨h1, h2, ?_, ?_, ?_⟩
  · intro hc ht
    unfold timedSubmit
    rw [hans, hst]
    simp [hc, ht]
  · intro hc ht
    unfold timedSubmit
    rw [hans, hst]
    simp [hc, ht]
  · intro hc
    unfold timedSubmit
    rw [hans, hst]
    simp [hc]

/-- Witness for C5 at the inclusive boundary `elapsed = 15`. -/
theorem C5_witness :
    ((false : Bool) = false)
  ∧ ((timedSubmit "a" "a" 15 initLedger
        { current_q := 0, score := 0, start_time := some 0, options := [],
          answered := false, feedback := TimedFeedback.noFeedback }).1 =
      (if ("a" : String) = "a" ∧ (15 : ℚ) - 0 ≤ 15 then
         award_xp "Timed Question" initLedger
       else initLedger)) := by
  refine ⟨rfl, ?_⟩
  exact (C5_timed_submit_boundary "a" "a" 15 0 initLedger
    { current_q := 0, score := 0, start_time := some 0, options := [],
      answered := false, feedback := TimedFeedback.noFeedback } rfl rfl).1

/-! ### C6: match-the-answers award condition -/

/-- Claim C6 counterexample: with the correct answers
`["No answer selected", "b", "c"]` and the selections `["", "b", "c"]` the
first slot is left unselected (so differs from its correct answer), yet the
Check loop substitutes the literal placeholder `"No answer selected"` for
the empty selection, counts the slot as matched, reaches a perfect score
and awards the 12 XP — XP with a mismatching slot, refuting the claimed
equivalence with exact per-slot string equality. -/
theorem C6_counterexample :
    (matchCheck [placeholderAns, "b", "c"] ["", "b", "c"] initLedger).1.xp = 12
  ∧ (["", "b", "c"] : List String).getD 0 "" ≠
      ([placeholderAns, "b", "c"] : List String).getD 0 ""
  ∧ (["", "b", "c"] : List String) ≠ [placeholderAns, "b", "c"] := by
  refine ⟨by decide, by decide, by decide⟩

/-- One slot, with a correct answer that is neither the placeholder nor
empty, matches exactly when the selection equals it. -/
theorem matchSlotOk_iff_eq (sel correct : String)
    (hph : correct ≠ placeholderAns) (hne : correct ≠ "") :
    matchSlotOk sel correct = true ↔ sel = correct := by
  unfold matchSlotOk
  by_cases hs : sel = ""
  · subst hs
    simp only [if_pos rfl, decide_eq_true_eq]
    constructor
    · intro h
      exact absurd h.symm hph
    · intro h
      exact absurd h.symm hne
  · simp [hs]

/-- Slot-wise matching over the zipped lists is list equality, when no
correct answer collides with the placeholder or the empty string. -/
theorem zip_slotOk_iff (cs : List String) :
    ∀ ss : List String, ss.length = cs.length →
    placeholderAns ∉ cs → "" ∉ cs →
    ((∀ p ∈ cs.zip ss, matchSlotOk p.2 p.1 = true) ↔ ss = cs) := by
  induction cs with
  | nil =>
    intro ss hlen _ _
    simp at hlen
    simp [hlen]
  | cons c cs ih =>
    intro ss hlen hph hne
    match ss with
    | [] => simp at hlen
    | s :: ss =>
      simp only [List.zip_cons_cons, List.mem_cons, List.cons.injEq]
      have hlen' : ss.length = cs.length := by
        simpa using hlen
      have hph' : placeholderAns ∉ cs := fun h => hph (List.mem_cons_of_mem _ h)
      have hne' : "" ∉ cs := fun h => hne (List.mem_cons_of_mem _ h)
      have hcph : c ≠ placeholderAns := fun h => hph (h ▸ List.mem_cons_self _ _)
      have hcne : c ≠ "" := fun h => hne (h ▸ List.mem_cons_self _ _)
      constructor
      · intro h
        have h1 := h (c, s) (Or.inl rfl)
        have h2 := (ih ss hlen' hph' hne').mp (fun p hp => h p (Or.inr hp))
        exact ⟨(matchSlotOk_iff_eq s c hcph hcne).mp h1, h2⟩
      · rintro ⟨hsc, hssc⟩
        intro p hp
        rcases hp with hp | hp
        · rw [hp]
          exact (matchSlotOk_iff_eq s c hcph hcne).mpr hsc
        · exact (ih ss hlen' hph' hne').mpr hssc p hp

/-- Claim C6 (amended): the Check branch awards the 12 XP exactly when
every zipped slot counts as matched under the code's comparison — the
selection with an empty selection replaced by the literal
`"No answer selected"` placeholder, compared to the slot's correct answer
(equivalently, score equals the pair count); any mismatching slot yields
no XP; and whenever no correct answer equals the placeholder or the empty
string, the award condition is exactly per-slot equality of the selections
with the correct answers. -/
theorem C6_match_award_amended (correctAnswers selections : List String)
    (led : Ledger) (hlen : selections.length = correctAnswers.length) :
    ((matchCheck correctAnswers selections led).1.xp = led.xp + 12 ↔
      ∀ p ∈ correctAnswers.zip selections, matchSlotOk p.2 p.1 = true)
  ∧ ((∃ p ∈ correctAnswers.zip selections, matchSlotOk p.2 p.1 = false) →
      (matchCheck correctAnswers selections led).1 = led)
  ∧ (placeholderAns ∉ correctAnswers → "" ∉ correctAnswers →
      ((matchCheck correctAnswers selections led).1.xp = led.xp + 12 ↔
        selections = correctAnswers)) := by
  have hzlen : (correctAnswers.zip selections).length = correctAnswers.length := by
    rw [List.length_zip, hlen, Nat.min_self]
  have hscore : matchScore correctAnswers selections = correctAnswers.length ↔
      ∀ p ∈ correctAnswers.zip selections, matchSlotOk p.2 p.1 = true := by
    unfold matchScore
    rw [← hzlen]
    exact List.countP_eq_length
  have haward : (award_xp "Match the Answers" led).xp = led.xp + 12 := by
    rw [award_xp_xp]
    rfl
  have hmain : (matchCheck correctAnswers selections led).1.xp = led.xp + 12 ↔
      ∀ p ∈ correctAnswers.zip selections, matchSlotOk p.2 p.1 = true := by
    unfold matchCheck
    by_cases h : matchScore correctAnswers selections = correctAnswers.length
    · rw [if_pos h]
      exact ⟨fun _ => hscore.mp h, fun _ => haward⟩
    · rw [if_neg h]
      exact ⟨fun hxp => absurd (show led.xp = led.xp + 12 from hxp) (by omega),
        fun hall => absurd (hscore.mpr hall) h⟩
  refine ⟨hmain, ?_, fun hph hne => hmain.trans
    (zip_slotOk_iff correctAnswers selections hlen hph hne)⟩
  rintro ⟨p, hp, hfalse⟩
  have hnot : ¬ matchScore correctAnswers selections = correctAnswers.length := by
    intro h
    have hT := hscore.mp h p hp
    rw [hT] at hfalse
    exact absurd hfalse (by simp)
  unfold matchCheck
  rw [if_neg hnot]

/-- Witness for the amended C6 theorem: a fully correct board awards XP. -/
theorem C6_witness :
    (["a", "b", "c"] : List String).length = (["a", "b", "c"] : List String).length
  ∧ ((matchCheck ["a", "b", "c"] ["a", "b", "c"] initLedger).1.xp =
      initLedger.xp + 12 ↔
      ∀ p ∈ (["a", "b", "c"] : List String).zip ["a", "b", "c"],
        matchSlotOk p.2 p.1 = true) :=
  ⟨rfl, (C6_match_award_amended ["a", "b", "c"] ["a", "b", "c"] initLedger rfl).1⟩

/-! ### C9: empty-chapter refusal -/

/-- Claim C9: for a chapter with no question/answer pairs, scenario
generation returns nothing, and the flashcard and MCQ entry points report
their informational message while leaving the ledger and the session state
untouched (so no XP is awarded and no session is created). -/
theorem C9_empty_chapter_refusal (chapter summary : String)
    (questions answers : List String) (ridx nameIdx roleIdx : Nat)
    (sampled : List String) (shuf : List String → List String)
    (h : questions.zip answers = []) :
    generate_scenario chapter summary questions answers ridx nameIdx roleIdx
        sampled shuf = Option.none
  ∧ (∀ ev led st, flashcards_ui questions answers ev led st =
      (led, st, some flashNoDataMsg))
  ∧ (∀ led st, mcq_entry questions answers led st =
      (led, st, some mcqNoDataMsg)) := by
  have h' : questions = [] ∨ answers = [] := by
    cases questions with
    | nil => exact Or.inl rfl
    | cons q qs =>
      cases answers with
      | nil => exact Or.inr rfl
      | cons a as => simp [List.zip_cons_cons] at h
  refine ⟨?_, ?_, ?_⟩
  · unfold generate_scenario
    rcases h' with h' | h' <;> simp [h']
  · intro ev led st
    unfold flashcards_ui
    rw [h]
    rfl
  · intro led st
    unfold mcq_entry
    rw [h]
    rfl

/-- Witness for C9 on a concrete empty chapter. -/
theorem C9_witness :
    ([] : List String).zip (["a"] : List String) = []
  ∧ generate_scenario "Ch" "S" [] ["a"] 0 0 0 [] id = Option.none :=
  ⟨rfl, (C9_empty_chapter_refusal "Ch" "S" [] ["a"] 0 0 0 [] id rfl).1⟩

/-! ### C4: the MCQ option cache -/

/-- Appending a fresh key to an association list makes it found exactly
there. -/
theorem lookup_append_fresh (l : List (String × List String)) (k : String)
    (v : List String) (h : l.lookup k = Option.none) :
    (l ++ [(k, v)]).lookup k = some v := by
  induction l with
  | nil => simp [List.lookup]
  | cons p l ih =>
    obtain ⟨k1, v1⟩ := p
    cases hk : k == k1 with
    | true => simp [List.lookup, hk] at h
    | false =>
      simp only [List.lookup, hk] at h
      simpa [List.lookup, hk] using ih h

/-- Claim C4: per `(chapter, question_index)` the option set is built at
most once — a cached key is returned as-is with the state untouched; a
missing key is built (the correct answer plus up to 3 distractors sampled
without replacement from the other answers, shuffled) and appended to the
cache; a second read after any read returns the identical frozen pair;
submit and advance never touch the cache; and only restart clears the
entire cache together with index and score. -/
theorem C4_mcq_option_cache (chapter : String) (aList : List String)
    (correct : String) (sample : List String → Nat → List String)
    (shuf : List String → List String) (st : McqState)
    (hsample : ∀ l k, k ≤ l.length →
      (sample l k).length = k ∧ (sample l k).Subperm l)
    (hshuf : ∀ l, (shuf l).Perm l) :
    (∀ opts, st.options.lookup (qKey chapter st.index) = some opts →
      mcqEnsureOptions chapter aList correct sample shuf st = (st, opts))
  ∧ (st.options.lookup (qKey chapter st.index) = Option.none →
      (mcqEnsureOptions chapter aList correct sample shuf st).1.options =
        st.options ++ [(qKey chapter st.index,
          (mcqEnsureOptions chapter aList correct sample shuf st).2)]
      ∧ (mcqEnsureOptions chapter aList correct sample shuf st).1.index = st.index
      ∧ (mcqEnsureOptions chapter aList correct sample shuf st).1.score = st.score
      ∧ ∃ d, d.Subperm (aList.filter (fun a => a ≠ correct))
          ∧ d.length = min 3 (aList.filter (fun a => a ≠ correct)).length
          ∧ (mcqEnsureOptions chapter aList correct sample shuf st).2.Perm
              (correct :: d))
  ∧ (∀ st2 opts2,
      mcqEnsureOptions chapter aList correct sample shuf st = (st2, opts2) →
      mcqEnsureOptions chapter aList correct sample shuf st2 = (st2, opts2))
  ∧ (∀ choice led, (mcqSubmit choice correct led st).2.options = st.options)
  ∧ (mcqAdvance st).options = st.options
  ∧ ((mcqRestart st).options = [] ∧ (mcqRestart st).index = 0 ∧
      (mcqRestart st).score = 0) := by
  have hbuild : ∃ d, d.Subperm (aList.filter (fun a => a ≠ correct))
      ∧ d.length = min 3 (aList.filter (fun a => a ≠ correct)).length
      ∧ (mcqBuildOptions aList correct sample shuf).Perm (correct :: d) := by
    by_cases hemp : (aList.filter (fun a => a ≠ correct)).isEmpty
    · refine ⟨[], List.nil_subperm, ?_, ?_⟩
      · rw [List.isEmpty_iff] at hemp
        rw [hemp]
        simp
      · simp only [mcqBuildOptions, hemp, if_true]
        exact hshuf _
    · have hle : min 3 (aList.filter (fun a => a ≠ correct)).length ≤
          (aList.filter (fun a => a ≠ correct)).length := Nat.min_le_right _ _
      obtain ⟨hlen, hsub⟩ := hsample (aList.filter (fun a => a ≠ correct))
        (min 3 (aList.filter (fun a => a ≠ correct)).length) hle
      refine ⟨_, hsub, hlen, ?_⟩
      simp only [mcqBuildOptions, hemp, if_false]
      exact hshuf _
  refine ⟨?_, ?_, ?_, ?_, rfl, ⟨rfl, rfl, rfl⟩⟩
  · intro opts h
    unfold mcqEnsureOptions
    rw [h]
  · intro h
    unfold mcqEnsureOptions
    rw [h]
    exact ⟨rfl, rfl, rfl, hbuild⟩
  · intro st2 opts2 heq
    unfold mcqEnsureOptions at heq ⊢
    cases hl : st.options.lookup (qKey chapter st.index) with
    | some opts =>
      rw [hl] at heq
      obtain ⟨h1, h2⟩ := Prod.mk.injEq .. ▸ heq
      subst h1
      rw [hl, h2]
    | none =>
      rw [hl] at heq
      have h1 : st2 = { st with options :=
          st.options ++ [(qKey chapter st.index,
            mcqBuildOptions aList correct sample shuf)] } :=
        (Prod.mk.injEq .. ▸ heq).1.symm
      have h2 : opts2 = mcqBuildOptions aList correct sample shuf :=
        (Prod.mk.injEq .. ▸ heq).2.symm
      subst h1
      subst h2
      rw [lookup_append_fresh _ _ _ hl]
  · intro choice led
    unfold mcqSubmit
    split <;> rfl

/-- Witness for C4 at a concrete chapter, with `random.sample` realised as
`take` and `random.shuffle` as the identity. -/
theorem C4_witness :
    (∀ opts, (([] : List (String × List String)).lookup (qKey "Ch" 0) = some opts) →
      mcqEnsureOptions "Ch" ["a", "b"] "a" (fun l k => l.take k) id
        { index := 0, score := 0, options := [], feedback := Option.none } =
      ({ index := 0, score := 0, options := [], feedback := Option.none }, opts))
  ∧ (mcqRestart { index := 0, score := 0, options := [], feedback := Option.none }).options = [] := by
  have h := C4_mcq_option_cache "Ch" ["a", "b"] "a" (fun l k => l.take k) id
    { index := 0, score := 0, options := [], feedback := Option.none }
    (fun l k hk => ⟨by rw [List.length_take]; omega,
      (List.take_sublist k l).subperm⟩)
    (fun l => List.Perm.refl l)
  exact ⟨h.1, h.2.2.2.2.2.1⟩

/-! ### C10: the dashboard breakdown re-derives the XP total -/

/-- A row leaves every other key's bucket unchanged. -/
theorem breakdownRow_ne (e : String) (d : String → Nat) (p : String × Nat)
    (k : String) (hk : k ≠ p.1) : breakdownRow e d p k = d k := by
  unfold breakdownRow
  split
  · exact Function.update_noteq hk _ _
  · rfl

/-- A row adds its configured value to its own bucket exactly when the
entry starts with its label. -/
theorem breakdownRow_self (e : String) (d : String → Nat) (p : String × Nat) :
    breakdownRow e d p p.1 = d p.1 + (if pyStartsWith e p.1 then p.2 else 0) := by
  unfold breakdownRow
  split
  · rw [Function.update_same]
  · simp

/-- Folding rows whose labels avoid `k` leaves bucket `k` unchanged. -/
theorem foldl_breakdownRow_ne (e : String) :
    ∀ (rows : List (String × Nat)) (d : String → Nat) (k : String),
    k ∉ rows.map Prod.fst → rows.foldl (breakdownRow e) d k = d k := by
  intro rows
  induction rows with
  | nil => intro d k _; rfl
  | cons r rest ih =>
    intro d k hk
    rw [List.foldl_cons, ih _ _ (fun h => hk (List.mem_cons_of_mem _ h)),
      breakdownRow_ne e d r k (fun h => hk (h ▸ List.mem_cons_self _ _))]

/-- `rowSum` only looks at the buckets named by the rows. -/
theorem rowSum_congr (rows : List (String × Nat)) (d1 d2 : String → Nat)
    (h : ∀ k ∈ rows.map Prod.fst, d1 k = d2 k) :
    rowSum rows d1 = rowSum rows d2 := by
  unfold rowSum
  congr 1
  exact List.map_congr_left (fun p hp => h p.1 (List.mem_map_of_mem _ hp))

/-- Processing one entry against a duplicate-free row table raises the sum
of the buckets by exactly the entry's contribution. -/
theorem rowSum_foldl (e : String) :
    ∀ (rows : List (String × Nat)) (d : String → Nat),
    (rows.map Prod.fst).Nodup →
    rowSum rows (rows.foldl (breakdownRow e) d) =
      rowSum rows d + entryContribution rows e := by
  intro rows
  induction rows with
  | nil => intro d _; simp [rowSum, entryContribution]
  | cons r rest ih =>
    intro d hnd
    rw [List.map_cons, List.nodup_cons] at hnd
    obtain ⟨hr, hrest⟩ := hnd
    have hsum1 : rowSum (r :: rest) ((r :: rest).foldl (breakdownRow e) d) =
        (rest.foldl (breakdownRow e) (breakdownRow e d r)) r.1 +
          rowSum rest (rest.foldl (breakdownRow e) (breakdownRow e d r)) := by
      simp [rowSum]
    rw [hsum1, foldl_breakdownRow_ne e rest _ _ hr, ih _ hrest,
      breakdownRow_self,
      rowSum_congr rest (breakdownRow e d r) d
        (fun k hk => breakdownRow_ne e d r k (fun h => hr (h ▸ hk)))]
    simp only [rowSum, entryContribution, List.map_cons, List.sum_cons]
    omega

/-- The breakdown of an extended log is the breakdown of the log with the
new entry processed. -/
theorem compute_xp_breakdown_append (history : List String) (e : String) :
    compute_xp_breakdown (history ++ [e]) =
      breakdownEntry (compute_xp_breakdown history) e := by
  unfold compute_xp_breakdown
  rw [List.foldl_append]
  rfl

/-- A label found in the XP table is one of the six challenge kinds. -/
theorem lookup_isSome_cases (l : String)
    (h : (XP_PER_CHALLENGE.lookup l).isSome = true) :
    l = "Flashcards" ∨ l = "MCQ Quiz" ∨ l = "Fill in the Blank" ∨
    l = "Match the Answers" ∨ l = "Timed Question" ∨
    l = "Scenario-Based (with Hint)" := by
  by_cases h1 : l = "Flashcards"
  · exact Or.inl h1
  by_cases h2 : l = "MCQ Quiz"
  · exact Or.inr (Or.inl h2)
  by_cases h3 : l = "Fill in the Blank"
  · exact Or.inr (Or.inr (Or.inl h3))
  by_cases h4 : l = "Match the Answers"
  · exact Or.inr (Or.inr (Or.inr (Or.inl h4)))
  by_cases h5 : l = "Timed Question"
  · exact Or.inr (Or.inr (Or.inr (Or.inr (Or.inl h5))))
  by_cases h6 : l = "Scenario-Based (with Hint)"
  · exact Or.inr (Or.inr (Or.inr (Or.inr (Or.inr h6))))
  exfalso
  have e1 : (l == "Flashcards") = false := by
    rw [beq_eq_false_iff_ne]; exact h1
  have e2 : (l == "MCQ Quiz") = false := by
    rw [beq_eq_false_iff_ne]; exact h2
  have e3 : (l == "Fill in the Blank") = false := by
    rw [beq_eq_false_iff_ne]; exact h3
  have e4 : (l == "Match the Answers") = false := by
    rw [beq_eq_false_iff_ne]; exact h4
  have e5 : (l == "Timed Question") = false := by
    rw [beq_eq_false_iff_ne]; exact h5
  have e6 : (l == "Scenario-Based (with Hint)") = false := by
    rw [beq_eq_false_iff_ne]; exact h6
  simp [XP_PER_CHALLENGE, List.lookup, e1, e2, e3, e4, e5, e6] at h

/-- A table label's own log entry contributes exactly that label's
configured XP: no kind's label is a prefix of another kind's entry. -/
theorem entryContribution_own_label (l : String)
    (h : (XP_PER_CHALLENGE.lookup l).isSome = true) :
    entryContribution XP_PER_CHALLENGE (xpEntry l (xpGain l)) = xpGain l := by
  rcases lookup_isSome_cases l h with h' | h' | h' | h' | h' | h' <;>
    subst h' <;> decide

/-- One award preserves the breakdown-sum invariant. -/
theorem breakdown_invariant_step (l : String) (s : Ledger)
    (hl : (XP_PER_CHALLENGE.lookup l).isSome = true)
    (hinv : kindSum (compute_xp_breakdown s.history) = s.xp) :
    kindSum (compute_xp_breakdown (award_xp l s).history) = (award_xp l s).xp := by
  rw [award_xp_history, award_xp_xp, compute_xp_breakdown_append]
  show rowSum XP_PER_CHALLENGE _ = _
  unfold breakdownEntry
  rw [rowSum_foldl _ _ _ (by decide), entryContribution_own_label l hl]
  exact congrArg (· + xpGain l) hinv

/-- The invariant holds along any run of table-labelled awards. -/
theorem breakdown_invariant_run :
    ∀ (labels : List String) (s : Ledger),
    (∀ l ∈ labels, (XP_PER_CHALLENGE.lookup l).isSome = true) →
    kindSum (compute_xp_breakdown s.history) = s.xp →
    kindSum (compute_xp_breakdown (applyAwards labels s).history) =
      (applyAwards labels s).xp := by
  intro labels
  induction labels with
  | nil => intro s _ hinv; exact hinv
  | cons l ls ih =>
    intro s h hinv
    have hstep := breakdown_invariant_step l s (h l (List.mem_cons_self _ _)) hinv
    exact ih (award_xp l s) (fun x hx => h x (List.mem_cons_of_mem _ hx)) hstep

/-- Claim C10: for a ledger built from `xp = 0` entirely by awards whose
labels come from the static XP table, the sum over all challenge kinds of
the XP breakdown recomputed from the activity log equals the ledger's XP
total (each entry is claimed by exactly one kind's label-prefix test and
contributes that kind's configured value). -/
theorem C10_breakdown_matches_total (labels : List String)
    (h : ∀ l ∈ labels, (XP_PER_CHALLENGE.lookup l).isSome = true) :
    kindSum (compute_xp_breakdown (applyAwards labels initLedger).history) =
      (applyAwards labels initLedger).xp :=
  breakdown_invariant_run labels initLedger h (by decide)

/-- Witness for C10 on a concrete run of awards. -/
theorem C10_witness :
    (∀ l ∈ (["Flashcards", "MCQ Quiz", "Flashcards", "Timed Question"] : List String),
      (XP_PER_CHALLENGE.lookup l).isSome = true)
  ∧ kindSum (compute_xp_breakdown
      (applyAwards ["Flashcards", "MCQ Quiz", "Flashcards", "Timed Question"]
        initLedger).history) =
    (applyAwards ["Flashcards", "MCQ Quiz", "Flashcards", "Timed Question"]
      initLedger).xp :=
  ⟨by decide, C10_breakdown_matches_total
    ["Flashcards", "MCQ Quiz", "Flashcards", "Timed Question"] (by decide)⟩

/-! ### C7: structure of the decision options -/

/-- The correct option always begins with `'A'`. -/
theorem correctOption_take_one (a : String) :
    (correctOption a).data.take 1 = ['A'] := by
  have h1 : ("Applied the concepts correctly: " : String).data.take 1 = ['A'] := by
    decide
  have h0 : 1 - ("Applied the concepts correctly: " : String).data.length = 0 := by
    decide
  calc (correctOption a).data.take 1
      = (("Applied the concepts correctly: " : String).data ++ a.data).take 1 := by
        rw [correctOption, String.data_append]
    _ = ("Applied the concepts correctly: " : String).data.take 1 ++
          a.data.take (1 - ("Applied the concepts correctly: " : String).data.length) := by
        rw [List.take_append_eq_append_take]
    _ = ['A'] := by
        rw [h1, h0]
        simp

/-- No distractor of the fixed pool equals any correct option. -/
theorem correctOption_not_mem (a : String) :
    correctOption a ∉ scenarioDistractors := by
  intro h
  have htake := correctOption_take_one a
  simp only [scenarioDistractors, List.mem_cons, List.not_mem_nil, or_false]
    at h
  rcases h with h | h | h | h <;> rw [h] at htake <;> exact absurd htake (by decide)

/-- Claim C7: for a chapter with at least one Q/A pair, the generated
scenario's `decision_options` list has length exactly 4, contains the
correct option exactly once, and its other 3 entries are distinct members
of the fixed 4-item distractor pool; the whole list is a shuffle of the
3 sampled distractors together with the correct option. -/
theorem C7_scenario_decision_options (chapter summary : String)
    (questions answers : List String) (ridx nameIdx roleIdx : Nat)
    (sampled : List String) (shuf : List String → List String)
    (hq : questions ≠ []) (ha : answers ≠ [])
    (hsub : sampled.Subperm scenarioDistractors) (hlen : sampled.length = 3)
    (hshuf : ∀ l, (shuf l).Perm l) :
    ∃ sc, generate_scenario chapter summary questions answers ridx nameIdx
        roleIdx sampled shuf = some sc
      ∧ sc.correct = correctOption (answers.getD ridx "")
      ∧ sc.options.length = 4
      ∧ sc.options.count sc.correct = 1
      ∧ sc.options.Perm (sampled ++ [sc.correct])
      ∧ (∀ x ∈ sc.options, x ≠ sc.correct → x ∈ scenarioDistractors)
      ∧ (sc.options.erase sc.correct).Nodup
      ∧ (sc.options.erase sc.correct).length = 3 := by
  have hguard : ¬ (questions.isEmpty ∨ answers.isEmpty) := by
    simp [List.isEmpty_iff, hq, ha]
  unfold generate_scenario
  rw [if_neg hguard]
  have hperm : (shuf (sampled ++ [correctOption (answers.getD ridx "")])).Perm
      (sampled ++ [correctOption (answers.getD ridx "")]) := hshuf _
  have hnm : correctOption (answers.getD ridx "") ∉ sampled :=
    fun hmem => correctOption_not_mem _ (hsub.subset hmem)
  have he : ((shuf (sampled ++ [correctOption (answers.getD ridx "")])).erase
      (correctOption (answers.getD ridx ""))).Perm sampled := by
    refine (hperm.erase _).trans ?_
    rw [List.erase_append_right _ hnm, List.erase_cons_head, List.append_nil]
  have hnodup : sampled.Nodup := by
    obtain ⟨l, hp, hs⟩ := hsub
    exact hp.nodup_iff.mp ((by decide : scenarioDistractors.Nodup).sublist hs)
  refine ⟨_, rfl, rfl, ?_, ?_, hperm, ?_, ?_, ?_⟩
  · rw [hperm.length_eq, List.length_append, hlen]
    rfl
  · rw [hperm.count_eq, List.count_append, List.count_eq_zero_of_not_mem hnm]
    simp
  · intro x hx hne
    rcases List.mem_append.mp (hperm.mem_iff.mp hx) with hx' | hx'
    · exact hsub.subset hx'
    · simp only [List.mem_singleton] at hx'
      exact absurd hx' hne
  · exact he.nodup_iff.mpr hnodup
  · rw [he.length_eq, hlen]

/-- Witness for C7 on a concrete chapter, with the sample realised as the
first three pool entries and the shuffle as the identity. -/
theorem C7_witness :
    (["q"] : List String) ≠ []
  ∧ (["the answer"] : List String) ≠ []
  ∧ (scenarioDistractors.take 3).Subperm scenarioDistractors
  ∧ (scenarioDistractors.take 3).length = 3
  ∧ ∃ sc, generate_scenario "Ch" "S" ["q"] ["the answer"] 0 0 0
        (scenarioDistractors.take 3) id = some sc
      ∧ sc.correct = correctOption ((["the answer"] : List String).getD 0 "")
      ∧ sc.options.length = 4
      ∧ sc.options.count sc.correct = 1
      ∧ sc.options.Perm (scenarioDistractors.take 3 ++ [sc.correct])
      ∧ (∀ x ∈ sc.options, x ≠ sc.correct → x ∈ scenarioDistractors)
      ∧ (sc.options.erase sc.correct).Nodup
      ∧ (sc.options.erase sc.correct).length = 3 :=
  ⟨by decide, by decide, (List.take_sublist 3 scenarioDistractors).subperm,
    by decide,
    C7_scenario_decision_options "Ch" "S" ["q"] ["the answer"] 0 0 0
      (scenarioDistractors.take 3) id (by decide) (by decide)
      ((List.take_sublist 3 scenarioDistractors).subperm) (by decide)
      (fun l => List.Perm.refl l)⟩

/-! ### C8: the goal rule -/

/-- Claim C8 counterexample: for the question `"How can SQL help?"` the
code's goal is `"Sql help?"` — the `re.sub` strips the phrase and Python's
`capitalize()` lowercases everything after the first character — while the
claim's rule (leading phrases stripped, trimmed, only the first letter
capitalised, the rest unchanged) yields `"SQL help?"`.  The two differ. -/
theorem C8_counterexample :
    (generate_scenario "Ch" "S" ["How can SQL help?"] ["ans"] 0 0 0
        (scenarioDistractors.take 3) id).map Scenario.goal =
      some (String.mk (scenarioGoal "Ch".data "How can SQL help?".data))
  ∧ scenarioGoal "Ch".data "How can SQL help?".data = "Sql help?".data
  ∧ specGoalClaim "Ch".data "How can SQL help?".data = "SQL help?".data
  ∧ ("Sql help?" : String).data ≠ ("SQL help?" : String).data := by
  refine ⟨rfl, by decide, by decide, by decide⟩

/-- Claim C8 (amended): the scenario's goal is the chosen question with
ALL boundary-delimited, case-insensitive occurrences of the interrogative
phrases removed — anywhere in the text, not only leading ones — trimmed,
then Python-capitalised: the first character uppercased and every later
character lowercased (not left unchanged); when the trimmed remainder is
empty the goal falls back to `"Apply {cleaned chapter title} in a real
task"`. -/
theorem C8_goal_amended (chapter summary : String)
    (questions answers : List String) (ridx nameIdx roleIdx : Nat)
    (sampled : List String) (shuf : List String → List String)
    (hq : questions ≠ []) (ha : answers ≠ []) :
    ∃ sc, generate_scenario chapter summary questions answers ridx nameIdx
        roleIdx sampled shuf = some sc
      ∧ sc.goal.data = scenarioGoal chapter.data (questions.getD ridx "").data
      ∧ (pyStrip (subAll (questions.getD ridx "").data) = [] →
          sc.goal.data = fallbackGoal chapter.data)
      ∧ (∀ c cs, pyStrip (subAll (questions.getD ridx "").data) = c :: cs →
          sc.goal.data = pyToUpper c :: cs.map pyLower) := by
  have hguard : ¬ (questions.isEmpty ∨ answers.isEmpty) := by
    simp [List.isEmpty_iff, hq, ha]
  unfold generate_scenario
  rw [if_neg hguard]
  refine ⟨_, rfl, rfl, ?_, ?_⟩
  · intro ht
    unfold scenarioGoal
    rw [ht]
    rfl
  · intro c cs ht
    unfold scenarioGoal
    rw [ht]
    rfl

/-- Witness for the amended C8 theorem on a concrete chapter. -/
theorem C8_witness :
    (["What is recursion?"] : List String) ≠ []
  ∧ (["a"] : List String) ≠ []
  ∧ ∃ sc, generate_scenario "Ch" "S" ["What is recursion?"] ["a"] 0 0 0 [] id =
        some sc
      ∧ sc.goal.data =
          scenarioGoal "Ch".data ((["What is recursion?"] : List String).getD 0 "").data
      ∧ (pyStrip (subAll ((["What is recursion?"] : List String).getD 0 "").data) = [] →
          sc.goal.data = fallbackGoal "Ch".data)
      ∧ (∀ c cs,
          pyStrip (subAll ((["What is recursion?"] : List String).getD 0 "").data) =
            c :: cs →
          sc.goal.data = pyToUpper c :: cs.map pyLower) :=
  ⟨by decide, by decide,
    C8_goal_amended "Ch" "S" ["What is recursion?"] ["a"] 0 0 0 [] id
      (by decide) (by decide)⟩

/-! ### C2: keyword selection and the blanked sentence -/

/-- Below the surrogate range, `Char.ofNat` keeps its code point. -/
theorem toNat_ofNat_small (n : Nat) (h : n < 55296) :
    (Char.ofNat n).toNat = n := by
  unfold Char.ofNat
  rw [dif_pos (Or.inl h)]
  rfl

/-- Lowering a word character yields a word character. -/
theorem isWordChar_pyLower (c : Char) (h : isWordChar c = true) :
    isWordChar (pyLower c) = true := by
  unfold isWordChar at h
  rw [decide_eq_true_eq] at h
  unfold pyLower
  split
  · next hc =>
    unfold isWordChar
    rw [decide_eq_true_eq, toNat_ofNat_small _ (by omega)]
    omega
  · unfold isWordChar
    rw [decide_eq_true_eq]
    exact h

/-- A character whose lowering is a word character is itself one. -/
theorem isWordChar_of_pyLower (c : Char) (h : isWordChar (pyLower c) = true) :
    isWordChar c = true := by
  unfold pyLower at h
  by_cases hc : 65 ≤ c.toNat ∧ c.toNat ≤ 90
  · unfold isWordChar
    rw [decide_eq_true_eq]
    omega
  · rw [if_neg hc] at h
    exact h

/-- Case-insensitive equality with a word character forces a word
character. -/
theorem isWordChar_of_ciEq (a b : Char) (ha : isWordChar a = true)
    (h : ciEq a b = true) : isWordChar b = true := by
  unfold ciEq at h
  rw [beq_iff_eq] at h
  exact isWordChar_of_pyLower b (h ▸ isWordChar_pyLower a ha)

/-- Case-insensitive character equality is reflexive. -/
theorem ciEq_refl (a : Char) : ciEq a a = true := by
  unfold ciEq
  exact beq_self_eq_true _

/-- A case-sensitive prefix is a case-insensitive prefix. -/
theorem ciPrefixB_of_csPrefixB (p : List Char) :
    ∀ s, csPrefixB p s = true → ciPrefixB p s = true := by
  induction p with
  | nil => intro s _; rfl
  | cons a ps ih =>
    intro s h
    cases s with
    | nil => simp [csPrefixB, List.isPrefixOf] at h
    | cons c cs =>
      simp only [csPrefixB, List.isPrefixOf, Bool.and_eq_true] at h
      obtain ⟨h1, h2⟩ := h
      rw [beq_iff_eq] at h1
      subst h1
      show (ciEq a a && ciPrefixB ps cs) = true
      rw [ciEq_refl, ih cs h2]
      rfl

/-- Every list is a case-sensitive prefix of itself extended. -/
theorem csPrefixB_append_self (p t : List Char) :
    csPrefixB p (p ++ t) = true := by
  induction p with
  | nil => cases t <;> rfl
  | cons a ps ih =>
    show (a == a && List.isPrefixOf ps (ps ++ t)) = true
    rw [beq_self_eq_true]
    exact ih

/-- Every list is a case-insensitive prefix of itself extended. -/
theorem ciPrefixB_append_self (p t : List Char) :
    ciPrefixB p (p ++ t) = true := by
  induction p with
  | nil => rfl
  | cons a ps ih =>
    show (ciEq a a && ciPrefixB ps (ps ++ t)) = true
    rw [ciEq_refl, ih]
    rfl

/-- A case-insensitive prefix made of word characters sits on a run of
word characters of the text. -/
theorem ciPrefixB_length_all (p : List Char) (hw : p.all isWordChar = true) :
    ∀ s, ciPrefixB p s = true →
      p.length ≤ s.length ∧ (s.take p.length).all isWordChar = true := by
  induction p with
  | nil => intro s _; simp
  | cons a ps ih =>
    intro s h
    cases s with
    | nil => simp [ciPrefixB] at h
    | cons c cs =>
      have h' : (ciEq a c && ciPrefixB ps cs) = true := h
      rw [Bool.and_eq_true] at h'
      obtain ⟨h1, h2⟩ := h'
      rw [List.all_cons, Bool.and_eq_true] at hw
      obtain ⟨hwa, hwps⟩ := hw
      obtain ⟨hl, ht⟩ := ih hwps cs h2
      refine ⟨by simpa using hl, ?_⟩
      rw [List.length_cons, List.take_succ_cons, List.all_cons, Bool.and_eq_true]
      exact ⟨isWordChar_of_ciEq a c hwa h1, ht⟩

/-- A word-character pattern longer than `w` cannot case-insensitively
match across the non-word character that follows `w`. -/
theorem ciPrefixB_break (w : List Char) (j : Char) (t p : List Char)
    (hlt : w.length < p.length) (hj : isWordChar j = false)
    (hw : p.all isWordChar = true) : ciPrefixB p (w ++ j :: t) = false := by
  cases hci : ciPrefixB p (w ++ j :: t) with
  | false => rfl
  | true =>
    exfalso
    obtain ⟨_, hall⟩ := ciPrefixB_length_all p hw _ hci
    have htake : (w ++ j :: t).take p.length =
        w ++ (j :: t).take (p.length - w.length) := by
      rw [List.take_append_eq_append_take, List.take_of_length_le (le_of_lt hlt)]
    obtain ⟨k, hk⟩ : ∃ k, p.length - w.length = k + 1 :=
      ⟨p.length - w.length - 1, by omega⟩
    rw [htake, hk, List.take_succ_cons, List.all_append, Bool.and_eq_true,
      List.all_cons, Bool.and_eq_true] at hall
    rw [hall.2.1] at hj
    exact Bool.true_eq_false.mp hj

/-- `wordsFuel` on the empty text. -/
theorem wordsFuel_nil (f : Nat) : wordsFuel f [] = [] := by
  cases f <;> rfl

/-- `takeWhile` keeps only satisfying characters. -/
theorem all_takeWhile_isWordChar (l : List Char) :
    (l.takeWhile isWordChar).all isWordChar = true := by
  induction l with
  | nil => rfl
  | cons c cs ih =>
    rw [List.takeWhile_cons]
    split
    · next hc =>
      rw [List.all_cons, Bool.and_eq_true]
      exact ⟨hc, ih⟩
    · rfl

/-- The head surviving a `dropWhile` fails the predicate. -/
theorem dropWhile_head_not (p : Char → Bool) :
    ∀ (l : List Char) (x : Char) (xs : List Char),
    l.dropWhile p = x :: xs → p x = false := by
  intro l
  induction l with
  | nil => intro x xs h; simp [List.dropWhile] at h
  | cons c cs ih =>
    intro x xs h
    rw [List.dropWhile_cons] at h
    split at h
    · exact ih x xs h
    · next hc =>
      injection h with h1 _
      subst h1
      exact eq_false_of_ne_true hc

/-- Every word produced by `wordsFuel` is a nonempty run of word
characters. -/
theorem mem_wordsFuel (w : List Char) :
    ∀ (f : Nat) (s : List Char), w ∈ wordsFuel f s →
      w.all isWordChar = true ∧ w ≠ [] := by
  intro f
  induction f with
  | zero => intro s h; simp [wordsFuel] at h
  | succ f ih =>
    intro s h
    cases s with
    | nil => simp [wordsFuel] at h
    | cons c cs =>
      unfold wordsFuel at h
      split at h
      · next hc =>
        rcases List.mem_cons.mp h with h | h
        · subst h
          refine ⟨?_, by simp⟩
          rw [List.all_cons, Bool.and_eq_true]
          exact ⟨hc, all_takeWhile_isWordChar cs⟩
        · exact ih _ h
      · exact ih _ h

/-- With enough fuel, `wordsFuel` does not depend on the exact amount. -/
theorem wordsFuel_congr :
    ∀ (f g : Nat) (s : List Char), s.length ≤ f → s.length ≤ g →
    wordsFuel f s = wordsFuel g s := by
  intro f
  induction f with
  | zero =>
    intro g s hf _
    have hs : s = [] := List.length_eq_zero.mp (Nat.le_zero.mp hf)
    subst hs
    rw [wordsFuel_nil, wordsFuel_nil]
  | succ f ih =>
    intro g s hf hg
    cases s with
    | nil => rw [wordsFuel_nil, wordsFuel_nil]
    | cons c cs =>
      cases g with
      | zero => simp at hg
      | succ g =>
        rw [List.length_cons] at hf hg
        unfold wordsFuel
        split
        · congr 1
          exact ih g _
            (le_trans (List.dropWhile_sublist isWordChar).length_le (by omega))
            (le_trans (List.dropWhile_sublist isWordChar).length_le (by omega))
        · exact ih g cs (by omega) (by omega)

/-- The chosen keyword is one of the words of the text. -/
theorem fibKeyword_mem (s kw : List Char) (h : fibKeyword s = some kw) :
    kw ∈ pyWords s := by
  unfold fibKeyword at h
  cases hf : (pyWords s).find? (fun w => 4 < w.length) with
  | some w =>
    rw [hf] at h
    injection h with h
    subst h
    exact List.mem_of_find?_eq_some hf
  | none =>
    rw [hf] at h
    exact List.mem_of_mem_head? h

/-- The chosen keyword is a nonempty run of word characters. -/
theorem fibKeyword_all_word (s kw : List Char) (h : fibKeyword s = some kw) :
    kw.all isWordChar = true ∧ kw ≠ [] :=
  mem_wordsFuel kw s.length s (fibKeyword_mem s kw h)

/-- Unfolding `wordsFuel` at a word character. -/
theorem wordsFuel_cons_pos (f : Nat) (c : Char) (cs : List Char)
    (hc : isWordChar c = true) :
    wordsFuel (f + 1) (c :: cs) =
      (c :: cs.takeWhile isWordChar) :: wordsFuel f (cs.dropWhile isWordChar) := by
  rw [wordsFuel.eq_3, if_pos hc]

/-- Unfolding `wordsFuel` at a non-word character. -/
theorem wordsFuel_cons_neg (f : Nat) (c : Char) (cs : List Char)
    (hc : ¬ isWordChar c = true) :
    wordsFuel (f + 1) (c :: cs) = wordsFuel f cs := by
  rw [wordsFuel.eq_3, if_neg hc]

/-- Decomposition of the text around the chosen keyword: the keyword
occurs verbatim after a prefix at whose positions no case-insensitive
occurrence of the keyword can start (the runs before it are too short, and
junk characters are not word characters). -/
theorem fibKeyword_decomp :
    ∀ (n : Nat) (s : List Char), s.length ≤ n →
    ∀ kw, fibKeyword s = some kw →
    ∃ pre post, s = pre ++ (kw ++ post) ∧
      ∀ i, i < pre.length → ciPrefixB kw (s.drop i) = false := by
  intro n
  induction n with
  | zero =>
    intro s hs kw h
    have hempt : s = [] := List.length_eq_zero.mp (Nat.le_zero.mp hs)
    subst hempt
    simp [fibKeyword, pyWords, wordsFuel] at h
  | succ n ih =>
    intro s hs kw h
    cases s with
    | nil => simp [fibKeyword, pyWords, wordsFuel] at h
    | cons c cs =>
      rw [List.length_cons] at hs
      by_cases hc : isWordChar c
      case neg =>
        have hred : pyWords (c :: cs) = pyWords cs := by
          show wordsFuel (cs.length + 1) (c :: cs) = pyWords cs
          rw [wordsFuel_cons_neg _ _ _ hc]
          rfl
        have hkw : fibKeyword cs = some kw := by
          unfold fibKeyword at h ⊢
          rw [hred] at h
          exact h
        obtain ⟨pre, post, heq, hno⟩ := ih cs (by omega) kw hkw
        obtain ⟨hall, hne⟩ := fibKeyword_all_word cs kw hkw
        refine ⟨c :: pre, post, by rw [List.cons_append, heq], ?_⟩
        intro i hi
        cases i with
        | zero =>
          rw [List.drop_zero]
          cases hkwc : kw with
          | nil => exact absurd hkwc hne
          | cons k ks =>
            cases hciq : ciEq k c with
            | false =>
              show (ciEq k c && ciPrefixB ks cs) = false
              rw [hciq]
              rfl
            | true =>
              exfalso
              rw [hkwc, List.all_cons, Bool.and_eq_true] at hall
              exact absurd (isWordChar_of_ciEq k c hall.1 hciq) hc
        | succ j =>
          rw [List.length_cons] at hi
          rw [List.drop_succ_cons]
          exact hno j (by omega)
      case pos =>
        have hsplit : c :: cs =
            (c :: cs.takeWhile isWordChar) ++ cs.dropWhile isWordChar := by
          rw [List.cons_append, List.takeWhile_append_dropWhile]
        have hpwords : pyWords (c :: cs) =
            (c :: cs.takeWhile isWordChar) ::
              wordsFuel cs.length (cs.dropWhile isWordChar) := by
          show wordsFuel (cs.length + 1) (c :: cs) = _
          exact wordsFuel_cons_pos _ _ _ hc
        have hwrest : wordsFuel cs.length (cs.dropWhile isWordChar) =
            pyWords (cs.dropWhile isWordChar) :=
          wordsFuel_congr cs.length (cs.dropWhile isWordChar).length _
            (List.dropWhile_sublist isWordChar).length_le (le_refl _)
        have hallr : (c :: cs.takeWhile isWordChar).all isWordChar = true := by
          rw [List.all_cons, Bool.and_eq_true]
          exact ⟨hc, all_takeWhile_isWordChar cs⟩
        by_cases hr4 : 4 < (c :: cs.takeWhile isWordChar).length
        · have hkwr : kw = c :: cs.takeWhile isWordChar := by
            unfold fibKeyword at h
            rw [hpwords, List.find?_cons_of_pos _ (by simpa using hr4)] at h
            injection h with h
            exact h.symm
          refine ⟨[], cs.dropWhile isWordChar, ?_, ?_⟩
          · rw [List.nil_append, hkwr]
            exact hsplit
          · intro i hi
            simp at hi
        · have hrle : (c :: cs.takeWhile isWordChar).length ≤ 4 :=
            Nat.le_of_not_lt hr4
          cases hfind :
              (pyWords (cs.dropWhile isWordChar)).find? (fun w => 4 < w.length) with
          | some w =>
            have hkww : kw = w := by
              unfold fibKeyword at h
              rw [hpwords, List.find?_cons_of_neg _ (by simpa using hr4),
                hwrest, hfind] at h
              injection h with h
              exact h.symm
            subst hkww
            have hkwrest : fibKeyword (cs.dropWhile isWordChar) = some kw := by
              unfold fibKeyword
              rw [hfind]
            have h4 : 4 < kw.length := by
              have hp := List.find?_some hfind
              simpa using hp
            obtain ⟨pre', post', heq', hno'⟩ := ih (cs.dropWhile isWordChar)
              (le_trans (List.dropWhile_sublist isWordChar).length_le (by omega))
              kw hkwrest
            obtain ⟨hallkw, hnekw⟩ := fibKeyword_all_word _ kw hkwrest
            obtain ⟨j, pre'', hpre⟩ : ∃ j pre'', pre' = j :: pre'' := by
              cases hp : pre' with
              | nil =>
                exfalso
                rw [hp, List.nil_append] at heq'
                cases hkwc : kw with
                | nil => exact absurd hkwc hnekw
                | cons k ks =>
                  rw [hkwc, List.cons_append] at heq'
                  have hk := dropWhile_head_not isWordChar cs _ _ heq'
                  rw [hkwc, List.all_cons, Bool.and_eq_true] at hallkw
                  rw [hallkw.1] at hk
                  exact Bool.true_eq_false.mp hk
              | cons j pre'' => exact ⟨j, pre'', rfl⟩
            have hjnw : isWordChar j = false := by
              rw [hpre, List.cons_append] at heq'
              exact dropWhile_head_not isWordChar cs _ _ heq'
            have hstext : (c :: cs : List Char) =
                (c :: cs.takeWhile isWordChar) ++ (pre' ++ (kw ++ post')) := by
              rw [← heq']
              exact hsplit
            refine ⟨(c :: cs.takeWhile isWordChar) ++ pre', post', ?_, ?_⟩
            · rw [List.append_assoc]
              exact hstext
            · intro i hi
              rw [List.length_append] at hi
              by_cases hir : i < (c :: cs.takeWhile isWordChar).length
              · have hdrop : (c :: cs).drop i =
                    ((c :: cs.takeWhile isWordChar).drop i) ++
                      (pre' ++ (kw ++ post')) := by
                  rw [hstext, List.drop_append_eq_append_drop,
                    Nat.sub_eq_zero_of_le (le_of_lt hir), List.drop_zero]
                rw [hdrop, hpre, List.cons_append]
                have hlt : ((c :: cs.takeWhile isWordChar).drop i).length <
                    kw.length := by
                  rw [List.length_drop]
                  omega
                exact ciPrefixB_break _ j _ kw hlt hjnw hallkw
              · have hge : (c :: cs.takeWhile isWordChar).length ≤ i :=
                  Nat.le_of_not_lt hir
                have hdrop : (c :: cs).drop i =
                    (pre' ++ (kw ++ post')).drop
                      (i - (c :: cs.takeWhile isWordChar).length) := by
                  rw [hstext, List.drop_append_eq_append_drop,
                    List.drop_eq_nil_of_le hge, List.nil_append]
                rw [hdrop, ← heq']
                exact hno' _ (by omega)
          | none =>
            have hkwr : kw = c :: cs.takeWhile isWordChar := by
              unfold fibKeyword at h
              rw [hpwords, List.find?_cons_of_neg _ (by simpa using hr4),
                hwrest, hfind] at h
              injection h with h
              exact h.symm
            refine ⟨[], cs.dropWhile isWordChar, ?_, ?_⟩
            · rw [List.nil_append, hkwr]
              exact hsplit
            · intro i hi
              simp at hi

/-- Both replacements walk unchanged past a prefix at whose positions no
case-insensitive occurrence of the pattern starts. -/
theorem replaceFirst_walk (pat rep : List Char) :
    ∀ (pre rest : List Char),
    (∀ i, i < pre.length → ciPrefixB pat ((pre ++ rest).drop i) = false) →
    replaceFirstCS pat rep (pre ++ rest) = pre ++ replaceFirstCS pat rep rest
    ∧ replaceFirstCI pat rep (pre ++ rest) = pre ++ replaceFirstCI pat rep rest := by
  intro pre
  induction pre with
  | nil => intro rest _; exact ⟨rfl, rfl⟩
  | cons c pre' ih =>
    intro rest hno
    have h0 : ciPrefixB pat (c :: (pre' ++ rest)) = false := by
      have h := hno 0 (by simp)
      rwa [List.drop_zero, List.cons_append] at h
    have hcs : csPrefixB pat (c :: (pre' ++ rest)) = false := by
      cases hcsv : csPrefixB pat (c :: (pre' ++ rest)) with
      | false => rfl
      | true =>
        rw [ciPrefixB_of_csPrefixB pat _ hcsv] at h0
        exact absurd h0 (by simp)
    have hrec := ih rest (fun i hi => by
      have h := hno (i + 1) (by rw [List.length_cons]; omega)
      rwa [List.cons_append, List.drop_succ_cons] at h)
    constructor
    · rw [List.cons_append]
      simp only [replaceFirstCS, hcs, Bool.false_eq_true, if_false]
      rw [hrec.1, List.cons_append]
    · rw [List.cons_append]
      simp only [replaceFirstCI, h0, Bool.false_eq_true, if_false]
      rw [hrec.2, List.cons_append]

/-- The case-sensitive replacement fires at the pattern's own position. -/
theorem replaceFirstCS_at_head (pat rep post : List Char) (hne : pat ≠ []) :
    replaceFirstCS pat rep (pat ++ post) = rep ++ post := by
  obtain ⟨k, ks, rfl⟩ : ∃ k ks, pat = k :: ks := by
    cases pat with
    | nil => exact absurd rfl hne
    | cons k ks => exact ⟨k, ks, rfl⟩
  have hcond : csPrefixB (k :: ks) (k :: (ks ++ post)) = true := by
    rw [← List.cons_append]
    exact csPrefixB_append_self _ _
  rw [List.cons_append]
  simp only [replaceFirstCS, hcond, if_true]
  rw [← List.cons_append, List.length_cons, ← List.length_cons k ks,
    List.drop_left]

/-- The case-insensitive replacement fires at the pattern's own position. -/
theorem replaceFirstCI_at_head (pat rep post : List Char) (hne : pat ≠ []) :
    replaceFirstCI pat rep (pat ++ post) = rep ++ post := by
  obtain ⟨k, ks, rfl⟩ : ∃ k ks, pat = k :: ks := by
    cases pat with
    | nil => exact absurd rfl hne
    | cons k ks => exact ⟨k, ks, rfl⟩
  have hcond : ciPrefixB (k :: ks) (k :: (ks ++ post)) = true := by
    rw [← List.cons_append]
    exact ciPrefixB_append_self _ _
  rw [List.cons_append]
  simp only [replaceFirstCI, hcond, if_true]
  rw [← List.cons_append, List.length_cons, ← List.length_cons k ks,
    List.drop_left]

/-- For the chosen keyword, the first case-sensitive occurrence and the
first case-insensitive occurrence coincide: Python's case-sensitive
`replace(keyword, "____", 1)` equals the case-insensitive replacement the
specification describes. -/
theorem replaceFirst_keyword_eq (full kw rep : List Char)
    (h : fibKeyword full = some kw) :
    replaceFirstCS kw rep full = replaceFirstCI kw rep full := by
  obtain ⟨_, hne⟩ := fibKeyword_all_word full kw h
  obtain ⟨pre, post, heq, hno⟩ :=
    fibKeyword_decomp full.length full (le_refl _) kw h
  subst heq
  obtain ⟨hcsw, hciw⟩ := replaceFirst_walk kw rep pre (kw ++ post) hno
  rw [hcsw, hciw, replaceFirstCS_at_head kw rep post hne,
    replaceFirstCI_at_head kw rep post hne]

/-- Claim C2: for every answer text, the keyword is the first
word (maximal `\w+` run) of length greater than 4, falling back to the
first word overall when none qualifies; with no words at all the item is
skipped (`fib_index += 1`) with lives untouched; and the displayed
sentence is the answer with the first case-insensitive occurrence of the
keyword replaced by the blank marker (the code's case-sensitive
`replace(keyword, "____", 1)` provably agrees with this, because the
keyword's first case-sensitive and case-insensitive occurrences
coincide). -/
theorem C2_fib_keyword_and_blank (full : List Char) (st : FibState) :
    (fibKeyword full = Option.none ↔ pyWords full = [])
  ∧ (pyWords full = [] →
      fibRenderItem full st = ({ st with index := st.index + 1 }, Option.none)
      ∧ (fibRenderItem full st).1.lives = st.lives
      ∧ (fibRenderItem full st).1.order = st.order)
  ∧ (∀ kw, fibKeyword full = some kw →
      ((4 < kw.length ∧
          (pyWords full).find? (fun w => 4 < w.length) = some kw)
        ∨ ((pyWords full).find? (fun w => 4 < w.length) = Option.none
            ∧ (pyWords full).head? = some kw))
      ∧ fibRenderItem full st =
          (st, some (kw, replaceFirstCI kw blankMarker full))) := by
  have hiff : fibKeyword full = Option.none ↔ pyWords full = [] := by
    constructor
    · intro h
      unfold fibKeyword at h
      cases hf : (pyWords full).find? (fun w => 4 < w.length) with
      | some w => rw [hf] at h; exact absurd h (by simp)
      | none =>
        rw [hf] at h
        exact List.head?_eq_none_iff.mp h
    · intro h
      unfold fibKeyword
      rw [h]
      rfl
  refine ⟨hiff, fun hempty => ?_, fun kw h => ?_⟩
  · have hnone : fibKeyword full = Option.none := hiff.mpr hempty
    unfold fibRenderItem
    rw [hnone]
    exact ⟨rfl, rfl, rfl⟩
  · constructor
    · unfold fibKeyword at h
      cases hf : (pyWords full).find? (fun w => 4 < w.length) with
      | some w =>
        rw [hf] at h
        injection h with h
        subst h
        refine Or.inl ⟨?_, rfl⟩
        have hp := List.find?_some hf
        simpa using hp
      | none =>
        rw [hf] at h
        exact Or.inr ⟨rfl, h⟩
    · unfold fibRenderItem
      rw [h]
      show (st, some (kw, replaceFirstCS kw blankMarker full)) =
        (st, some (kw, replaceFirstCI kw blankMarker full))
      rw [replaceFirst_keyword_eq full kw blankMarker h]

/-- Witness for C2 on a concrete sentence: the keyword of
`"The program runs fast"` is `"program"` and the rendered sentence blanks
its (unique) occurrence. -/
theorem C2_witness :
    fibKeyword "The program runs fast".data = some "program".data
  ∧ fibRenderItem "The program runs fast".data
        { order := [0], index := 0, lives := 3, attempts := 0 } =
      ({ order := [0], index := 0, lives := 3, attempts := 0 },
        some ("program".data,
          replaceFirstCI "program".data blankMarker
            "The program runs fast".data))
  ∧ replaceFirstCI "program".data blankMarker "The program runs fast".data =
      "The ____ runs fast".data :=
  ⟨by decide,
    ((C2_fib_keyword_and_blank "The program runs fast".data
      { order := [0], index := 0, lives := 3, attempts := 0 }).2.2
      "program".data (by decide)).2,
    by decide⟩
